import Mathlib

/-!
Verification of the PyAbel two-point deconvolution (`abel/two_point.py`) and
circularization tools (`abel/tools/circularize.py`).

The numerical code is shallowly embedded:
* images are lists of lists of scalars (rows of pixels);
* the two-point operator matrix `D` is built exactly as the numpy code does,
  by a sequence of cell writes (diagonal indices, upper-triangle indices,
  then the two special cells) over an all-zero matrix;
* external numerical-library primitives (scipy `UnivariateSpline`,
  `scipy.optimize.leastsq`, `ndimage.map_coordinates`, `np.arctan2`) are
  modelled as function parameters, matching the spec's treatment of them as
  opaque primitives with documented contracts.
-/

/-- Basis function Eq. (9) of Dasch, as computed by the source:
`np.log((np.sqrt((j+1)**2-i**2) + j+1)/(np.sqrt(j**2-i**2) + j))/np.pi`. -/
noncomputable def J (i j : ℕ) : ℝ :=
  Real.log ((Real.sqrt (((j : ℝ) + 1) ^ 2 - (i : ℝ) ^ 2) + (j : ℝ) + 1) /
            (Real.sqrt ((j : ℝ) ^ 2 - (i : ℝ) ^ 2) + (j : ℝ))) / Real.pi

/-- The spec's form of the basis function:
`J(i,j) = [ln(sqrt((j+1)^2 - i^2) + (j+1)) - ln(sqrt(j^2 - i^2) + j)] / pi`. -/
noncomputable def Jdiff (i j : ℕ) : ℝ :=
  (Real.log (Real.sqrt (((j : ℝ) + 1) ^ 2 - (i : ℝ) ^ 2) + (j : ℝ) + 1) -
   Real.log (Real.sqrt ((j : ℝ) ^ 2 - (i : ℝ) ^ 2) + (j : ℝ))) / Real.pi

/-- One numpy-style cell assignment `M[c] = v` on a matrix given as a
function of its indices. -/
def write (M : ℕ → ℕ → ℝ) (c : ℕ × ℕ) (v : ℝ) : ℕ → ℕ → ℝ :=
  fun a b => if a = c.1 ∧ b = c.2 then v else M a b

/-- A vectorized numpy assignment `M[cells] = f(cells)`: the cells are
written one after the other, each receiving `f` of its own index pair. -/
def writeMany (M : ℕ → ℕ → ℝ) (cells : List (ℕ × ℕ)) (f : ℕ → ℕ → ℝ) :
    ℕ → ℕ → ℝ :=
  cells.foldl (fun A c => write A c (f c.1 c.2)) M

/-- `np.diag_indices(cols)` as a list of index pairs. -/
def diagIndices (cols : ℕ) : List (ℕ × ℕ) :=
  (List.range cols).map (fun k => (k, k))

/-- `np.triu_indices(cols, k=1)` as a list of index pairs in row-major
order: `(i, j)` with `i < j < cols`, `i` increasing, then `j`. -/
def triuIndices (cols : ℕ) : List (ℕ × ℕ) :=
  (List.range cols).flatMap (fun i =>
    (List.range (cols - (i + 1))).map (fun t => (i, i + 1 + t)))

/-- The two-point deconvolution operator, built exactly as the source does:
start from `np.zeros((cols, cols))`, write the diagonal (minus its first
cell) with `J`, write the strict upper triangle (minus its first cell
`(0,1)`) with `J(i,j) - J(i,j-1)`, then write the two special cells. -/
noncomputable def Dmat (cols : ℕ) : ℕ → ℕ → ℝ :=
  let D0 : ℕ → ℕ → ℝ := fun _ _ => 0
  let D1 := writeMany D0 ((diagIndices cols).drop 1) (fun i j => J i j)
  let D2 := writeMany D1 ((triuIndices cols).drop 1)
              (fun i j => J i j - J i (j - 1))
  let D3 := write D2 (0, 1) (J 0 1 - 2 / Real.pi)
  write D3 (0, 0) (2 / Real.pi)

lemma writeMany_notMem (M : ℕ → ℕ → ℝ) (cells : List (ℕ × ℕ))
    (f : ℕ → ℕ → ℝ) (a b : ℕ) (h : (a, b) ∉ cells) :
    writeMany M cells f a b = M a b := by
  induction cells generalizing M with
  | nil => rfl
  | cons c cs ih =>
      simp only [List.mem_cons, not_or] at h
      simp only [writeMany, List.foldl_cons]
      rw [show List.foldl (fun A c => write A c (f c.1 c.2))
            (write M c (f c.1 c.2)) cs =
          writeMany (write M c (f c.1 c.2)) cs f from rfl]
      rw [ih _ h.2]
      simp only [write]
      rw [if_neg]
      intro hc
      exact h.1 (by cases c; simp_all)

lemma writeMany_mem (M : ℕ → ℕ → ℝ) (cells : List (ℕ × ℕ))
    (f : ℕ → ℕ → ℝ) (a b : ℕ) (h : (a, b) ∈ cells) :
    writeMany M cells f a b = f a b := by
  induction cells generalizing M with
  | nil => simp at h
  | cons c cs ih =>
      simp only [writeMany, List.foldl_cons]
      rw [show List.foldl (fun A c => write A c (f c.1 c.2))
            (write M c (f c.1 c.2)) cs =
          writeMany (write M c (f c.1 c.2)) cs f from rfl]
      by_cases hcs : (a, b) ∈ cs
      · exact ih _ hcs
      · have hc : (a, b) = c := by
          rcases List.mem_cons.mp h with h1 | h1
          · exact h1
          · exact absurd h1 hcs
        rw [writeMany_notMem _ _ _ _ _ hcs]
        cases c
        simp only [write]
        rw [if_pos]
        · simp_all
        · simp_all

lemma mem_diagIndices {cols i j : ℕ} :
    (i, j) ∈ diagIndices cols ↔ i = j ∧ i < cols := by
  simp only [diagIndices, List.mem_map, List.mem_range, Prod.mk.injEq]
  constructor
  · rintro ⟨k, hk, rfl, rfl⟩; exact ⟨rfl, hk⟩
  · rintro ⟨rfl, hi⟩; exact ⟨i, hi, rfl, rfl⟩

lemma mem_triuIndices {cols i j : ℕ} :
    (i, j) ∈ triuIndices cols ↔ i < j ∧ j < cols := by
  simp only [triuIndices, List.mem_flatMap, List.mem_map, List.mem_range,
    Prod.mk.injEq]
  constructor
  · rintro ⟨a, ha, t, ht, rfl, rfl⟩; omega
  · rintro ⟨hij, hj⟩
    exact ⟨i, by omega, j - (i + 1), by omega, rfl, by omega⟩

lemma mem_diag_drop {cols i : ℕ} (h1 : 1 ≤ i) (hc : i < cols) :
    (i, i) ∈ (diagIndices cols).drop 1 := by
  obtain ⟨c, rfl⟩ : ∃ c, cols = c + 1 := ⟨cols - 1, by omega⟩
  have : diagIndices (c + 1) = (0, 0) :: (List.range c).map
      (fun k => (k + 1, k + 1)) := by
    simp [diagIndices, List.range_succ_eq_map, List.map_map, Function.comp_def]
  rw [this]
  simp only [List.drop_succ_cons, List.drop_zero, List.mem_map,
    List.mem_range, Prod.mk.injEq]
  exact ⟨i - 1, by omega, by omega, by omega⟩

lemma triu_cons {cols : ℕ} (h2 : 2 ≤ cols) :
    ∃ rest, triuIndices cols = (0, 1) :: rest := by
  obtain ⟨c, rfl⟩ : ∃ c, cols = c + 2 := ⟨cols - 2, by omega⟩
  rw [triuIndices, List.range_succ_eq_map, List.flatMap_cons]
  rw [show c + 2 - (0 + 1) = c + 1 from rfl, List.range_succ_eq_map]
  simp only [List.map_cons, List.cons_append]
  exact ⟨_, rfl⟩

lemma mem_triu_drop {cols i j : ℕ} (h2 : 2 ≤ cols) (hij : i < j)
    (hj : j < cols) (hne : ¬(i = 0 ∧ j = 1)) :
    (i, j) ∈ (triuIndices cols).drop 1 := by
  obtain ⟨rest, hrest⟩ := triu_cons h2
  have hmem : (i, j) ∈ triuIndices cols := mem_triuIndices.mpr ⟨hij, hj⟩
  rw [hrest] at hmem ⊢
  simp only [List.drop_succ_cons, List.drop_zero]
  rcases List.mem_cons.mp hmem with h | h
  · exact absurd (by simpa using h) hne
  · exact h

lemma J_eq_Jdiff (i j : ℕ) (_hij : i ≤ j) (hj : 1 ≤ j) : J i j = Jdiff i j := by
  have hb : (0 : ℝ) < Real.sqrt ((j : ℝ) ^ 2 - (i : ℝ) ^ 2) + (j : ℝ) := by
    have : (0 : ℝ) < (j : ℝ) := by exact_mod_cast hj
    have := Real.sqrt_nonneg ((j : ℝ) ^ 2 - (i : ℝ) ^ 2)
    linarith
  have ha : (0 : ℝ) < Real.sqrt (((j : ℝ) + 1) ^ 2 - (i : ℝ) ^ 2) + (j : ℝ) + 1 := by
    have : (0 : ℝ) ≤ (j : ℝ) := by positivity
    have := Real.sqrt_nonneg (((j : ℝ) + 1) ^ 2 - (i : ℝ) ^ 2)
    linarith
  rw [J, Jdiff, Real.log_div (ne_of_gt ha) (ne_of_gt hb)]

/-- An image array, either a 1D profile or a 2D image, as accepted and
returned by `two_point_transform`. -/
inductive Img where
  | one : List ℝ → Img
  | two : List (List ℝ) → Img

/-- `np.atleast_2d`: promote a 1D profile to a single-row 2D image. -/
def atleast_2d : Img → List (List ℝ)
  | Img.one v => [v]
  | Img.two m => m

/-- `abel.dasch.two_point_transform`: direction guard, promotion to 2D,
operator build, `np.tensordot(IM, D, axes=(1,1))`, demotion of a
single-row result, and division by `dr`. -/
noncomputable def two_point_transform (im : Img) (dr : ℝ) (direction : String) :
    Except String Img :=
  if direction ≠ "inverse" then
    Except.error "Forward \"two_point\" transform not implemented"
  else
    let IM := atleast_2d im
    let cols := (IM.headD []).length
    let D := Dmat cols
    let inv_IM := IM.map (fun row =>
      (List.range cols).map (fun i =>
        (List.range cols).foldl (fun s jj => s + row.getD jj 0 * D i jj) 0))
    if inv_IM.length = 1 then
      Except.ok (Img.one ((inv_IM.headD []).map (fun x => x / dr)))
    else
      Except.ok (Img.two (inv_IM.map (List.map (fun x => x / dr))))

/-- C1: for every `cols ≥ 2`, the operator matrix built by
`two_point_transform` has `D[i,i] = J(i,i)` for `i ≥ 1`, `D[i,j] =
J(i,j) - J(i,j-1)` on the strict upper triangle away from `(0,1)`, and
the special cells `D[0,0] = 2/pi`, `D[0,1] = J(0,1) - 2/pi`, with `J`
the difference-of-logarithms form of the spec. -/
theorem two_point_operator_matches_spec (cols : ℕ) (h2 : 2 ≤ cols) :
    (∀ i, 1 ≤ i → i < cols → Dmat cols i i = Jdiff i i) ∧
    (∀ i j, i < j → j < cols → ¬(i = 0 ∧ j = 1) →
      Dmat cols i j = Jdiff i j - Jdiff i (j - 1)) ∧
    Dmat cols 0 0 = 2 / Real.pi ∧
    Dmat cols 0 1 = Jdiff 0 1 - 2 / Real.pi := by
  refine ⟨?_, ?_, ?_, ?_⟩
  · intro i h1 hc
    have hnot : (i, i) ∉ (triuIndices cols).drop 1 := by
      intro h
      have := mem_triuIndices.mp (List.mem_of_mem_drop h)
      omega
    simp only [Dmat, write]
    rw [if_neg (by omega), if_neg (by omega)]
    rw [writeMany_notMem _ _ _ _ _ hnot,
        writeMany_mem _ _ _ _ _ (mem_diag_drop h1 hc)]
    exact J_eq_Jdiff i i le_rfl h1
  · intro i j hij hj hne
    have hj2 : 2 ≤ j := by
      rcases Nat.lt_or_ge j 2 with h | h
      · interval_cases j
        · omega
        · omega
      · exact h
    simp only [Dmat, write]
    rw [if_neg (by omega), if_neg (by omega)]
    rw [writeMany_mem _ _ _ _ _ (mem_triu_drop h2 hij hj hne)]
    rw [J_eq_Jdiff i j (by omega) (by omega),
        J_eq_Jdiff i (j - 1) (by omega) (by omega)]
  · simp [Dmat, write]
  · simp only [Dmat, write]
    rw [if_neg (by decide), if_pos (by decide)]
    rw [J_eq_Jdiff 0 1 (by omega) le_rfl]

theorem two_point_operator_matches_spec_witness :
    Dmat 2 0 0 = 2 / Real.pi ∧ Dmat 2 1 1 = Jdiff 1 1 :=
  ⟨(two_point_operator_matches_spec 2 (by decide)).2.2.1,
   (two_point_operator_matches_spec 2 (by decide)).1 1 (by decide) (by decide)⟩

/-- C2: the operator matrix is zero strictly below the diagonal
(`D[i,j] = 0` whenever `j < i`) for every valid column count. -/
theorem two_point_operator_causal (cols i j : ℕ) (_h2 : 2 ≤ cols)
    (_hi : i < cols) (hji : j < i) : Dmat cols i j = 0 := by
  have hd : (i, j) ∉ (diagIndices cols).drop 1 := by
    intro h
    have := mem_diagIndices.mp (List.mem_of_mem_drop h)
    omega
  have ht : (i, j) ∉ (triuIndices cols).drop 1 := by
    intro h
    have := mem_triuIndices.mp (List.mem_of_mem_drop h)
    omega
  simp only [Dmat, write]
  rw [if_neg (by omega), if_neg (by omega),
      writeMany_notMem _ _ _ _ _ ht, writeMany_notMem _ _ _ _ _ hd]

theorem two_point_operator_causal_witness : Dmat 2 1 0 = 0 :=
  two_point_operator_causal 2 1 0 (by decide) (by decide) (by decide)

/-- C3: any direction other than `"inverse"` makes `two_point_transform`
return the unsupported-direction error at entry, while `"inverse"`
succeeds. -/
theorem two_point_direction_guard (im : Img) (dr : ℝ) (direction : String)
    (h : direction ≠ "inverse") :
    two_point_transform im dr direction =
      Except.error "Forward \"two_point\" transform not implemented" ∧
    (two_point_transform im dr "inverse").isOk = true := by
  constructor
  · simp [two_point_transform, h]
  · simp only [two_point_transform]
    rw [if_neg (by simp)]
    split
    · rfl
    · rfl

theorem two_point_direction_guard_witness :
    two_point_transform (Img.one [1]) 1 "forward" =
      Except.error "Forward \"two_point\" transform not implemented" ∧
    (two_point_transform (Img.one [1]) 1 "inverse").isOk = true :=
  two_point_direction_guard (Img.one [1]) 1 "forward" (by decide)

/-- Whether a transform call returned a 2D image. -/
def returnsTwoD : Except String Img → Bool
  | Except.ok (Img.two _) => true
  | _ => false

/-- C4 counterexample: a 2D input of shape `(1, 2)` does NOT produce a 2D
output with the same number of rows — the single-row result is demoted
to 1D, contradicting the claim that the output is demoted exactly when
the input was 1D. -/
theorem two_point_shape_cex :
    returnsTwoD (two_point_transform (Img.two [[(1 : ℝ), 2]]) 1 "inverse")
      = false := by
  rfl

/-- C4 (amended): a 1D input of length `N` yields a 1D output of length
`N`, and a 2D input with at least two rows yields a 2D output with the
same number of rows; a single-row 2D input is demoted to 1D (see C10). -/
theorem two_point_shape_preservation :
    (∀ (v : List ℝ) (dr : ℝ), ∃ w,
      two_point_transform (Img.one v) dr "inverse" =
        Except.ok (Img.one w) ∧ w.length = v.length) ∧
    (∀ (m : List (List ℝ)) (dr : ℝ), 2 ≤ m.length → ∃ m2,
      two_point_transform (Img.two m) dr "inverse" =
        Except.ok (Img.two m2) ∧ m2.length = m.length) := by
  constructor
  · intro v dr
    simp only [two_point_transform, atleast_2d]
    rw [if_neg (by simp)]
    rw [if_pos (by simp)]
    exact ⟨_, rfl, by simp⟩
  · intro m dr hm
    simp only [two_point_transform, atleast_2d]
    rw [if_neg (by simp)]
    rw [if_neg (by simp; omega)]
    exact ⟨_, rfl, by simp⟩

theorem two_point_shape_preservation_witness :
    ∃ m2, two_point_transform (Img.two [[(1 : ℝ)], [2]]) 1 "inverse" =
      Except.ok (Img.two m2) ∧ m2.length = 2 :=
  two_point_shape_preservation.2 [[(1 : ℝ)], [2]] 1 (by decide)

/-- C10: a 2D input with a single row is demoted to a 1D output whose
length is the column count — demotion is decided by the output's row
count, not by the input's dimensionality. -/
theorem two_point_demotes_single_row (xs : List ℝ) (dr : ℝ) :
    ∃ w, two_point_transform (Img.two [xs]) dr "inverse" =
      Except.ok (Img.one w) ∧ w.length = xs.length := by
  simp only [two_point_transform, atleast_2d]
  rw [if_neg (by simp)]
  rw [if_pos (by simp)]
  exact ⟨_, rfl, by simp⟩

/-- Elementwise division of an image by a scalar, as `inv_IM/dr` does. -/
noncomputable def imgDiv (dr : ℝ) : Img → Img
  | Img.one v => Img.one (v.map (fun x => x / dr))
  | Img.two m => Img.two (m.map (List.map (fun x => x / dr)))

/-- C9: the grid-spacing divisor is applied uniformly — the result with
divisor `dr` is the result with divisor `1`, divided elementwise by
`dr`; and dividing by the default `dr = 1` changes nothing. -/
theorem two_point_dr_uniform (im : Img) (dr : ℝ) (_hdr : 0 < dr) :
    two_point_transform im dr "inverse" =
      Except.map (imgDiv dr) (two_point_transform im 1 "inverse") ∧
    ∀ g, imgDiv 1 g = g := by
  constructor
  · simp only [two_point_transform]
    rw [if_neg (by simp)]
    split
    · simp [Except.map, imgDiv, List.map_map, Function.comp_def]
    · simp [Except.map, imgDiv, List.map_map, Function.comp_def]
  · intro g
    cases g <;> simp [imgDiv]

theorem two_point_dr_uniform_witness :
    two_point_transform (Img.one [1]) 2 "inverse" =
      Except.map (imgDiv 2) (two_point_transform (Img.one [1]) 1 "inverse") ∧
    ∀ g, imgDiv 1 g = g :=
  two_point_dr_uniform (Img.one [1]) 2 zero_lt_two

/-!
Circularization tools (`abel/tools/circularize.py`). Pixel values are
rationals (exact stand-ins for floats); the scipy primitives
`UnivariateSpline` (an interpolating-spline factory) and
`scipy.optimize.leastsq` are passed in as function parameters.
-/

namespace tools

/-- `aslice.sum(axis=1)`: collapse a 2D angular slice to its 1D radial
intensity profile by summing each radius row over the slice's angles. -/
def profileOf (aslice : List (List ℚ)) : List ℚ :=
  aslice.map (fun row => row.sum)

/-- Helper for `np.argmax`: scan with current index, best index and best
value; a later value replaces the best only if strictly greater, so the
first occurrence of the maximum wins, as in numpy. -/
def argmaxAux (cur bi : ℕ) (bv : ℚ) : List ℚ → ℕ
  | [] => bi
  | x :: xs =>
      if bv < x then argmaxAux (cur + 1) cur x xs
      else argmaxAux (cur + 1) bi bv xs

/-- `np.argmax` of a 1D profile (index of the first maximal entry). -/
def argmax : List ℚ → ℕ
  | [] => 0
  | x :: xs => argmaxAux 1 0 x xs

/-- The radially scaled, amplitude-scaled profile built inside
`residual`: `spline_prof(radial) * param[1]` where `spline_prof` is the
interpolating spline through `(radial*param[0], profile)`. -/
def newprof (mkSpline : List ℚ → List ℚ → ℚ → ℚ) (param : ℚ × ℚ)
    (radial profile : List ℚ) : List ℚ :=
  radial.map (fun r =>
    mkSpline (radial.map (fun q => q * param.1)) profile r * param.2)

/-- `residual(param, radial, profile, previous)`: the radially scaled
profile minus the adjacent previous profile. -/
def residual (mkSpline : List ℚ → List ℚ → ℚ → ℚ) (param : ℚ × ℚ)
    (radial profile previous : List ℚ) : List ℚ :=
  List.zipWith (fun a b => a - b) (newprof mkSpline param radial profile)
    previous

/-- One iteration of the `"lsq"` loop in `correction`: fit the slice's
profile against the running reference, append the fitted radial scale
factor, add the fitted residual into the running reference
(`previous += residual(...)`) and warm-start the next fit
(`fitpar = result[0]`). State: `(sf, fitpar, previous)`. -/
def lsqStep (mkSpline : List ℚ → List ℚ → ℚ → ℚ)
    (leastsq : ((ℚ × ℚ) → List ℚ) → (ℚ × ℚ) → (ℚ × ℚ))
    (radial : List ℚ) (st : List ℚ × (ℚ × ℚ) × List ℚ)
    (p : ℚ × List (List ℚ)) : List ℚ × (ℚ × ℚ) × List ℚ :=
  let profile := profileOf p.2
  let result := leastsq
    (fun par => residual mkSpline par radial profile st.2.2) st.2.1
  (st.1 ++ [result.1], result,
   List.zipWith (fun a b => a + b) st.2.2
     (residual mkSpline result radial profile st.2.2))

/-- `correction(slice_angles, slices, radial, method)`: radial scaling
factor per slice, by peak tracking (`"argmax"`) or sequential
least-squares profile matching (`"lsq"`); any other method name is an
error. -/
def correction (mkSpline : List ℚ → List ℚ → ℚ → ℚ)
    (leastsq : ((ℚ × ℚ) → List ℚ) → (ℚ × ℚ) → (ℚ × ℚ))
    (slice_angles : List ℚ) (slices : List (List (List ℚ)))
    (radial : List ℚ) (method : String) : Except String (List ℚ) :=
  if method = "argmax" then
    let pkpos := (slice_angles.zip slices).map
      (fun p => argmax (profileOf p.2))
    let r0 := radial.getD (pkpos.getD 0 0) 0
    Except.ok (pkpos.map (fun p => r0 / radial.getD p 0))
  else if method = "lsq" then
    let st0 : List ℚ × (ℚ × ℚ) × List ℚ :=
      ([1], (1, 1), profileOf (slices.headD []))
    let final := ((slice_angles.drop 1).zip (slices.drop 1)).foldl
      (lsqStep mkSpline leastsq radial) st0
    Except.ok final.1
  else
    Except.error ("method variable must be one of \x27argmax\x27 or" ++
      " \x27lsq\x27, not \x27" ++ method ++ "\x27")

/-- A trivial stand-in for the scipy spline factory, used to instantiate
witnesses. -/
def constSpline : List ℚ → List ℚ → ℚ → ℚ := fun _ _ _ => 0

/-- A trivial stand-in for `scipy.optimize.leastsq` that returns the
initial guess, used to instantiate witnesses. -/
def idLeastsq : ((ℚ × ℚ) → List ℚ) → (ℚ × ℚ) → (ℚ × ℚ) := fun _ p => p

/-- C5: any method other than `"argmax"` or `"lsq"` makes `correction`
return the invalid-method error, for every slice-angle sequence, slice
sequence and radial grid. -/
theorem correction_method_guard (mkSpline : List ℚ → List ℚ → ℚ → ℚ)
    (leastsq : ((ℚ × ℚ) → List ℚ) → (ℚ × ℚ) → (ℚ × ℚ))
    (slice_angles : List ℚ) (slices : List (List (List ℚ)))
    (radial : List ℚ) (method : String)
    (h1 : method ≠ "argmax") (h2 : method ≠ "lsq") :
    correction mkSpline leastsq slice_angles slices radial method =
      Except.error ("method variable must be one of \x27argmax\x27 or" ++
        " \x27lsq\x27, not \x27" ++ method ++ "\x27") := by
  simp [correction, h1, h2]

theorem correction_method_guard_witness :
    correction constSpline idLeastsq [0] [[[1]]] [1] "centroid" =
      Except.error ("method variable must be one of \x27argmax\x27 or" ++
        " \x27lsq\x27, not \x27centroid\x27") :=
  correction_method_guard constSpline idLeastsq [0] [[[1]]] [1] "centroid"
    (by decide) (by decide)

lemma correction_argmax_eq (mkSpline : List ℚ → List ℚ → ℚ → ℚ)
    (leastsq : ((ℚ × ℚ) → List ℚ) → (ℚ × ℚ) → (ℚ × ℚ))
    (slice_angles : List ℚ) (slices : List (List (List ℚ)))
    (radial : List ℚ) :
    correction mkSpline leastsq slice_angles slices radial "argmax" =
      Except.ok (((slice_angles.zip slices).map
          (fun p => argmax (profileOf p.2))).map
        (fun p => radial.getD (((slice_angles.zip slices).map
            (fun p => argmax (profileOf p.2))).getD 0 0) 0 /
          radial.getD p 0)) := rfl

lemma correction_lsq_eq (mkSpline : List ℚ → List ℚ → ℚ → ℚ)
    (leastsq : ((ℚ × ℚ) → List ℚ) → (ℚ × ℚ) → (ℚ × ℚ))
    (slice_angles : List ℚ) (slices : List (List (List ℚ)))
    (radial : List ℚ) :
    correction mkSpline leastsq slice_angles slices radial "lsq" =
      Except.ok ((((slice_angles.drop 1).zip (slices.drop 1)).foldl
        (lsqStep mkSpline leastsq radial)
        ([1], (1, 1), profileOf (slices.headD []))).1) := rfl

lemma lsq_fold_sf_head (mkSpline : List ℚ → List ℚ → ℚ → ℚ)
    (leastsq : ((ℚ × ℚ) → List ℚ) → (ℚ × ℚ) → (ℚ × ℚ)) (radial : List ℚ) :
    ∀ (l : List (ℚ × List (List ℚ))) (st : List ℚ × (ℚ × ℚ) × List ℚ),
      st.1 ≠ [] →
      (l.foldl (lsqStep mkSpline leastsq radial) st).1 ≠ [] ∧
      (l.foldl (lsqStep mkSpline leastsq radial) st).1.headD 0 =
        st.1.headD 0 := by
  intro l
  induction l with
  | nil => intro st h; exact ⟨h, rfl⟩
  | cons p ps ih =>
      intro st h
      simp only [List.foldl_cons]
      have hne : (lsqStep mkSpline leastsq radial st p).1 ≠ [] := by
        simp [lsqStep]
      obtain ⟨h1, h2⟩ := ih _ hne
      refine ⟨h1, ?_⟩
      rw [h2]
      obtain ⟨y, ys, hst⟩ := List.exists_cons_of_ne_nil h
      simp [lsqStep, hst]

/-- C6 counterexample: if the first slice's peak sits at radius `0`, the
first `"argmax"` scale factor is `0/0`, not `1` (numpy produces NaN
there): with `radial = [0]` and a single slice the result is `[0]`. -/
theorem correction_first_scale_cex :
    correction constSpline idLeastsq [0] [[[1]]] [0] "argmax" =
      Except.ok [0] ∧ (0 : ℚ) ≠ 1 := by
  constructor
  · rw [correction_argmax_eq]
    simp [profileOf, argmax, argmaxAux]
  · decide

/-- C6 (amended): for non-empty slice-angle and slice sequences, the
first `"lsq"` scale factor is exactly `1`, and the first `"argmax"`
scale factor is the first slice's peak radius divided by itself, which
equals `1` whenever that peak radius is nonzero. -/
theorem correction_first_scale (mkSpline : List ℚ → List ℚ → ℚ → ℚ)
    (leastsq : ((ℚ × ℚ) → List ℚ) → (ℚ × ℚ) → (ℚ × ℚ))
    (slice_angles : List ℚ) (slices : List (List (List ℚ)))
    (radial : List ℚ) (hsa : slice_angles ≠ []) (hsl : slices ≠ []) :
    (radial.getD (argmax (profileOf (slices.headD []))) 0 ≠ 0 →
      ∃ sf, correction mkSpline leastsq slice_angles slices radial "argmax" =
        Except.ok sf ∧ sf.headD 0 = 1) ∧
    (∃ sf, correction mkSpline leastsq slice_angles slices radial "lsq" =
      Except.ok sf ∧ sf.headD 0 = 1) := by
  constructor
  · intro hr
    obtain ⟨a, as, rfl⟩ := List.exists_cons_of_ne_nil hsa
    obtain ⟨s, ss, rfl⟩ := List.exists_cons_of_ne_nil hsl
    refine ⟨_, correction_argmax_eq mkSpline leastsq _ _ _, ?_⟩
    simp only [List.zip_cons_cons, List.map_cons, List.getD_cons_zero,
      List.headD_cons]
    exact div_self (by simpa using hr)
  · have hfold := lsq_fold_sf_head mkSpline leastsq radial
      ((slice_angles.drop 1).zip (slices.drop 1))
      ([1], (1, 1), profileOf (slices.headD [])) (by simp)
    exact ⟨_, correction_lsq_eq mkSpline leastsq _ _ _,
      by simpa using hfold.2⟩

theorem correction_first_scale_witness :
    (∃ sf, correction constSpline idLeastsq [0] [[[1]]] [2] "argmax" =
      Except.ok sf ∧ sf.headD 0 = 1) ∧
    (∃ sf, correction constSpline idLeastsq [0] [[[1]]] [2] "lsq" =
      Except.ok sf ∧ sf.headD 0 = 1) :=
  ⟨(correction_first_scale constSpline idLeastsq [0] [[[1]]] [2]
      (by decide) (by decide)).1 (by decide),
   (correction_first_scale constSpline idLeastsq [0] [[[1]]] [2]
      (by decide) (by decide)).2⟩

lemma zipWith_add_cancel : ∀ (a b : List ℚ), b.length = a.length →
    List.zipWith (fun x y => x + y) b
      (List.zipWith (fun x y => x - y) a b) = a := by
  intro a
  induction a with
  | nil =>
      intro b h
      rw [List.length_nil, List.length_eq_zero] at h
      simp [h]
  | cons x xs ih =>
      intro b h
      cases b with
      | nil => simp at h
      | cons y ys =>
          simp only [List.zipWith_cons_cons]
          rw [ih ys (by simpa using h)]
          congr 1
          ring

/-- C7: each `"lsq"` iteration updates the running reference by adding
the fitted residual (`previous += residual(result[0], ...)`), and as a
consequence the reference becomes the freshly fitted scaled profile of
the slice just processed — it tracks the slices instead of staying
fixed at slice 0's profile. -/
theorem lsq_reference_accumulates (mkSpline : List ℚ → List ℚ → ℚ → ℚ)
    (leastsq : ((ℚ × ℚ) → List ℚ) → (ℚ × ℚ) → (ℚ × ℚ)) (radial : List ℚ)
    (st : List ℚ × (ℚ × ℚ) × List ℚ) (p : ℚ × List (List ℚ))
    (hlen : st.2.2.length = radial.length) :
    (lsqStep mkSpline leastsq radial st p).2.2 =
      List.zipWith (fun a b => a + b) st.2.2
        (residual mkSpline
          (leastsq (fun par =>
            residual mkSpline par radial (profileOf p.2) st.2.2) st.2.1)
          radial (profileOf p.2) st.2.2) ∧
    (lsqStep mkSpline leastsq radial st p).2.2 =
      newprof mkSpline
        (leastsq (fun par =>
          residual mkSpline par radial (profileOf p.2) st.2.2) st.2.1)
        radial (profileOf p.2) := by
  constructor
  · rfl
  · simp only [lsqStep]
    rw [residual]
    exact zipWith_add_cancel _ _ (by simp [newprof, hlen])

theorem lsq_reference_accumulates_witness :
    (lsqStep constSpline idLeastsq [1]
        (([1], (1, 1), [5]) : List ℚ × (ℚ × ℚ) × List ℚ)
        ((0, [[2]]) : ℚ × List (List ℚ))).2.2 =
      List.zipWith (fun a b => a + b) [(5 : ℚ)]
        (residual constSpline
          (idLeastsq (fun par =>
            residual constSpline par [1] (profileOf [[2]]) [5]) (1, 1))
          [1] (profileOf [[2]]) [5]) ∧
    (lsqStep constSpline idLeastsq [1]
        (([1], (1, 1), [5]) : List ℚ × (ℚ × ℚ) × List ℚ)
        ((0, [[2]]) : ℚ × List (List ℚ))).2.2 =
      newprof constSpline
        (idLeastsq (fun par =>
          residual constSpline par [1] (profileOf [[2]]) [5]) (1, 1))
        [1] (profileOf [[2]]) :=
  lsq_reference_accumulates constSpline idLeastsq [1]
    (([1], (1, 1), [5]) : List ℚ × (ℚ × ℚ) × List ℚ)
    ((0, [[2]]) : ℚ × List (List ℚ)) (by decide)

/-- Source coordinates computed by `circularize` for output pixel
`(y, x)`: center at `(col//2, row//2)`, offsets `X = x - origin[0]`,
`Y = origin[1] - y`, angle `theta = arctan2(X, Y)`, corrected offsets
`X/radcorrspl(theta)`, `Y/radcorrspl(theta)`, and the
`map_coordinates` lookup point `(origin[1] - Yactual, Xactual +
origin[0])`. -/
def srcCoord (radcorrspl : ℚ → ℚ) (arctan2 : ℚ → ℚ → ℚ)
    (rows cols y x : ℕ) : ℚ × ℚ :=
  let origin0 : ℕ := cols / 2
  let origin1 : ℕ := rows / 2
  let X : ℤ := (x : ℤ) - (origin0 : ℤ)
  let Y : ℤ := (origin1 : ℤ) - (y : ℤ)
  let theta : ℚ := arctan2 (X : ℚ) (Y : ℚ)
  ((origin1 : ℚ) - (Y : ℚ) / radcorrspl theta,
   (X : ℚ) / radcorrspl theta + (origin0 : ℚ))

/-- `circularize(IM, radcorrspl)`: every output pixel is read from its
computed source coordinates by the interpolating sampler
(`ndimage.interpolation.map_coordinates`, passed in as `interp`). -/
def circularize (interp : List (List ℚ) → ℚ → ℚ → ℚ)
    (arctan2 : ℚ → ℚ → ℚ) (IM : List (List ℚ))
    (radcorrspl : ℚ → ℚ) : List (List ℚ) :=
  let rows := IM.length
  let cols := (IM.headD []).length
  (List.range rows).map (fun y => (List.range cols).map (fun x =>
    interp IM (srcCoord radcorrspl arctan2 rows cols y x).1
      (srcCoord radcorrspl arctan2 rows cols y x).2))

/-- Nearest-neighbour sampling, a concrete interpolator exact at
integer coordinates, used to instantiate witnesses. -/
def nearestInterp : List (List ℚ) → ℚ → ℚ → ℚ :=
  fun im r c =>
    (im.getD (⌊r + 1 / 2⌋).toNat []).getD (⌊c + 1 / 2⌋).toNat 0

/-- A stand-in for `np.arctan2`, used to instantiate witnesses (the
identity-correction property holds for every angle function). -/
def arctanQ : ℚ → ℚ → ℚ := fun _ _ => 0

/-- C8: with the constant correction function `1`, the source
coordinates computed by `circularize` are each output pixel's own
coordinates, so any sampler that is exact at integer coordinates
reproduces the input image: the identity correction is the identity
map. -/
theorem circularize_identity_correction
    (interp : List (List ℚ) → ℚ → ℚ → ℚ) (arctan2 : ℚ → ℚ → ℚ)
    (IM : List (List ℚ))
    (hrect : ∀ r ∈ IM, r.length = (IM.headD []).length)
    (hinterp : ∀ y x : ℕ, y < IM.length → x < (IM.headD []).length →
      interp IM (y : ℚ) (x : ℚ) = (IM.getD y []).getD x 0) :
    (∀ rows cols y x : ℕ,
      srcCoord (fun _ => 1) arctan2 rows cols y x = ((y : ℚ), (x : ℚ))) ∧
    circularize interp arctan2 IM (fun _ => 1) = IM := by
  have hsrc : ∀ rows cols y x : ℕ,
      srcCoord (fun _ => 1) arctan2 rows cols y x = ((y : ℚ), (x : ℚ)) := by
    intro rows cols y x
    simp only [srcCoord, div_one]
    refine Prod.ext ?_ ?_
    · simp only [Int.cast_sub, Int.cast_natCast]
      ring
    · simp only [Int.cast_sub, Int.cast_natCast]
      ring
  refine ⟨hsrc, ?_⟩
  apply List.ext_getElem
  · simp [circularize]
  · intro y hy1 hy2
    have hy : y < IM.length := hy2
    simp only [circularize, List.getElem_map, List.getElem_range]
    apply List.ext_getElem
    · simpa using (hrect IM[y] (List.getElem_mem hy)).symm
    · intro x hx1 hx2
      have hx : x < (IM.headD []).length := by
        have := hrect IM[y] (List.getElem_mem hy)
        simp only [List.length_map, List.length_range] at hx1
        omega
      simp only [List.getElem_map, List.getElem_range, hsrc]
      rw [hinterp y x hy hx]
      rw [List.getD_eq_getElem _ _ hy, List.getD_eq_getElem _ _ hx2]

theorem circularize_identity_correction_witness :
    srcCoord (fun _ => 1) arctanQ 5 5 2 3 = (((2 : ℕ) : ℚ), ((3 : ℕ) : ℚ)) ∧
    circularize nearestInterp arctanQ [[3]] (fun _ => 1) = [[3]] :=
  ⟨(circularize_identity_correction nearestInterp arctanQ [[3]]
      (by decide)
      (by intro y x hy hx
          simp only [List.length_cons, List.length_nil, List.headD_cons]
            at hy hx
          obtain rfl : y = 0 := by omega
          obtain rfl : x = 0 := by omega
          norm_num [nearestInterp])).1 5 5 2 3,
   (circularize_identity_correction nearestInterp arctanQ [[3]]
      (by decide)
      (by intro y x hy hx
          simp only [List.length_cons, List.length_nil, List.headD_cons]
            at hy hx
          obtain rfl : y = 0 := by omega
          obtain rfl : x = 0 := by omega
          norm_num [nearestInterp])).2⟩

end tools
